import Mathlib

/-!
# profile_queries: a shallow embedding

The development follows `src/profile_queries.cpp`: the worker loop of
`op_profile`, the variant dispatch of `profile`, and the command line
handling of `main`.

Conventions.
* `size_t` is 64 bits wide; the loop counter of a worker is advanced with
  an explicit reduction modulo `2 ^ 64`.
* The retrieval algorithms, the query reader, the memory mapping of files
  and the block profiler are collaborators outside the file: a run records
  *that* they were called (an `Event`), never what they compute.
* Threads of one `op_profile` call are kept apart: a run is a list with one
  event sequence per worker.  The join at the end of `op_profile` orders a
  run before everything that follows it in `profile`; `Linearization` gives
  the event sequences of the whole process that result.
* A worker that throws ends the process through `std::terminate`.  The
  other workers are then cut short at an arbitrary point; the run records
  for each worker the events up to its own end.
* A vector of `Q` queries and a worker count `N` of type `unsigned` satisfy
  `Q + N ≤ 2 ^ 64`; this bound appears as a hypothesis wherever the loop
  counter must not wrap around.
-/

namespace Pisa

/-- The type `pisa::term_id_vec`: one query, a sequence of term ids. -/
abbrev term_id_vec := List Nat

/-- Number of values of `size_t`. -/
def SIZE_T_RANGE : Nat := 2 ^ 64

/-- The four query classes a `query_fun` closure of `profile` can wrap; the
argument of the ranked ones is the `k` given to their constructor. -/
inductive Algorithm where
  | and_query
  | ranked_and_query (k : Nat)
  | wand_query (k : Nat)
  | maxscore_query (k : Nat)
  deriving DecidableEq, Repr

/-- A `std::function<uint64_t(term_id_vec)>`: `none` is the empty function
object, `some a` one holding a closure over algorithm `a`. -/
abbrev QueryFun := Option Algorithm

/-- Observable actions of the program. -/
inductive Event where
  /-- The line `spdlog::info("Loading index from {}", index_filename)`. -/
  | info_loading_index (index_filename : String)
  /-- The call `mapper::map(index, m)` on the mapped index file. -/
  | map_index (index_filename : String)
  /-- The message `error mapping file: ..., exiting...` on `std::cerr`. -/
  | cerr_error_mapping (wand_data_filename : String)
  /-- The call `mapper::map(wdata, md, warmup)` on the mapped score data. -/
  | map_wand_data (wand_data_filename : String)
  /-- The line `spdlog::info("Performing {} queries", type)`. -/
  | info_performing (type : String)
  /-- The line `spdlog::info("Query type: {}", t)`. -/
  | info_query_type (t : String)
  /-- The line `spdlog::error("Unsupported query type: {}", t)`. -/
  | error_unsupported_query_type (t : String)
  /-- The line `spdlog::info("{} queries processed", i)`. -/
  | progress (i : Nat)
  /-- The call `query_op_copy(queries[i])` on a non-empty function object. -/
  | invoke (alg : Algorithm) (i : Nat) (terms : term_id_vec)
  /-- The call `query_op_copy(queries[i])` on an empty function object: it
  throws `std::bad_function_call`. -/
  | bad_function_call (i : Nat)
  /-- The call `block_profiler::dump(std::cout)`. -/
  | dump
  /-- The line `spdlog::error("Unknown type {}", type)`. -/
  | error_unknown_type (type : String)
  deriving DecidableEq, Repr

/-- What one worker thread of `op_profile` did: its events in program order,
and whether its body ended by an exception leaving the thread function. -/
structure WorkerRun where
  events : List Event
  threw : Bool
  deriving DecidableEq, Repr

/-- The body of the thread lambda of `op_profile` from loop counter `i` on:
`for (size_t i = tid; i < queries.size(); i += n_threads)`, with the progress
line under `i % 10000 == 0` and the call `query_op_copy(queries[i])`.  A call
of the empty function object throws and ends the thread body.  One unit of
`fuel` is spent per evaluation of the loop condition; `none` means the fuel
ran out. -/
def worker_loop (query_op_copy : QueryFun) (queries : List term_id_vec) (n_threads : Nat) :
    Nat → Nat → Option WorkerRun
  | 0, _ => none
  | fuel + 1, i =>
    if h : i < queries.length then
      let log := if i % 10000 = 0 then [Event.progress i] else []
      match query_op_copy with
      | none => some ⟨log ++ [Event.bad_function_call i], true⟩
      | some alg =>
        match worker_loop query_op_copy queries n_threads fuel ((i + n_threads) % SIZE_T_RANGE) with
        | none => none
        | some r => some ⟨log ++ Event.invoke alg i queries[i] :: r.events, r.threw⟩
    else some ⟨[], false⟩

/-- Collects the results of all workers; `none` as soon as one is `none`. -/
def join_all : List (Option WorkerRun) → Option (List WorkerRun)
  | [] => some []
  | none :: _ => none
  | some r :: rs =>
    match join_all rs with
    | none => none
    | some l => some (r :: l)

/-- The function `op_profile`.  `hardware_concurrency` is the value returned
by `std::thread::hardware_concurrency()`; it becomes `n_threads` unchanged.
Worker `tid` copies `query_op` and runs its loop from `i = tid`; the final
loop of `op_profile` joins all workers.  Each worker gets `Q + 1` units of
fuel for a batch of `Q` queries: a loop that needs more never ends
(`worker_loop_none_forever`).  The result is `none` when some worker never
ends, so that the join does not return. -/
def op_profile (hardware_concurrency : Nat) (query_op : QueryFun)
    (queries : List term_id_vec) : Option (List WorkerRun) :=
  let n_threads := hardware_concurrency
  join_all ((List.range n_threads).map fun tid =>
    worker_loop query_op queries n_threads (queries.length + 1) tid)

/-- How the process (or a function of it) ends. -/
inductive Exit where
  /-- The function returns; for `main` this is exit status 0. -/
  | normal
  /-- An exception is not caught: `std::terminate` aborts the process. -/
  | abort
  /-- The behaviour is undefined (a null or out-of-range `argv` entry is
  read as a string). -/
  | undefined
  deriving DecidableEq, Repr

/-- One step of the main thread. -/
inductive Step where
  /-- An event of the main thread itself. -/
  | seq (e : Event)
  /-- One `op_profile` call: the workers are started, run concurrently and
  are joined (when none of them throws). -/
  | par (workers : List (List Event))
  deriving DecidableEq, Repr

/-- Steps of the main thread in program order, and how the run ends. -/
structure Outcome where
  steps : List Step
  exit : Exit
  deriving DecidableEq, Repr

/-- The if/else-if chain in the loop body of `profile`: the function object
assigned to `query_fun` for the name `t`, and the events on that path.
`has_wand_data` is `wand_data_filename.has_value()`. -/
def bind_query_fun (t : String) (has_wand_data : Bool) : QueryFun × List Event :=
  if t = "and" then (some Algorithm.and_query, [])
  else if t = "ranked_and" ∧ has_wand_data = true then (some (Algorithm.ranked_and_query 10), [])
  else if t = "wand" ∧ has_wand_data = true then (some (Algorithm.wand_query 10), [])
  else if t = "maxscore" ∧ has_wand_data = true then (some (Algorithm.maxscore_query 10), [])
  else (none, [Event.error_unsupported_query_type t])

/-- The loop `for (auto const& t: query_types)` of `profile` followed by
`block_profiler::dump(std::cout)`.  A worker that throws ends the process:
nothing after that `op_profile` call happens. -/
def profile_loop (hardware_concurrency : Nat) (has_wand_data : Bool)
    (queries : List term_id_vec) : List String → Option Outcome
  | [] => some ⟨[Step.seq Event.dump], Exit.normal⟩
  | t :: ts =>
    let b := bind_query_fun t has_wand_data
    let head := (Event.info_query_type t :: b.2).map Step.seq
    match op_profile hardware_concurrency b.1 queries with
    | none => none
    | some workers =>
      let run := Step.par (workers.map WorkerRun.events)
      if workers.any WorkerRun.threw then some ⟨head ++ [run], Exit.abort⟩
      else
        match profile_loop hardware_concurrency has_wand_data queries ts with
        | none => none
        | some rest => some ⟨head ++ run :: rest.steps, rest.exit⟩

/-- The call `boost::algorithm::split(query_types, query_type, is_any_of(":"))`
(adjacent separators are not merged; an empty input gives one empty token). -/
def split_query_types (query_type : String) : List String :=
  (query_type.toList.splitOn ':').map String.mk

/-- What the program reads from its surroundings. -/
structure Env where
  /-- Value of `std::thread::hardware_concurrency()`. -/
  hardware_concurrency : Nat
  /-- The names in the sequence `PISA_INDEX_TYPES` (from `index_types.hpp`). -/
  index_types : List String
  /-- Whether `mio::mmap_source m(index_filename)` succeeds. -/
  index_mappable : String → Bool
  /-- Whether `md.map(*wand_data_filename, error)` leaves `error` clear. -/
  wand_data_mappable : String → Bool
  /-- The queries `read_query(q)` yields from standard input. -/
  stdin_queries : List term_id_vec
  /-- For a path `fb.open` can open, the queries `read_query(q, is)` yields. -/
  file_queries : String → Option (List term_id_vec)

/-- The function template `profile` (one instance per index type; the
instances differ only in the index class).  A failed `mmap_source`
construction and the `std::runtime_error` thrown for unmappable score data
are not caught anywhere. -/
def profile (env : Env) (index_filename : String) (wand_data_filename : Option String)
    (queries : List term_id_vec) (type : String) (query_type : String) : Option Outcome :=
  let s1 := [Step.seq (Event.info_loading_index index_filename)]
  if env.index_mappable index_filename = false then some ⟨s1, Exit.abort⟩
  else
    let s2 := s1 ++ [Step.seq (Event.map_index index_filename)]
    let run_queries (s3 : List Step) : Option Outcome :=
      match profile_loop env.hardware_concurrency wand_data_filename.isSome queries
          (split_query_types query_type) with
      | none => none
      | some o => some ⟨s3 ++ Step.seq (Event.info_performing type) :: o.steps, o.exit⟩
    match wand_data_filename with
    | none => run_queries s2
    | some w =>
      if env.wand_data_mappable w = false then
        some ⟨s2 ++ [Step.seq (Event.cerr_error_mapping w)], Exit.abort⟩
      else run_queries (s2 ++ [Step.seq (Event.map_wand_data w)])

/-- An entry `argv[i]` as a `const char*`. -/
inductive CStr where
  /-- A C string: `i < argc`. -/
  | str (s : String)
  /-- The null pointer `argv[argc]`. -/
  | null
  /-- A read past `argv[argc]`. -/
  | out_of_range
  deriving DecidableEq, Repr

/-- The array access `argv[i]`, with `argc = argv.length`. -/
def argv_at (argv : List String) (i : Nat) : CStr :=
  if h : i < argv.length then CStr.str argv[i]
  else if i = argv.length then CStr.null
  else CStr.out_of_range

/-- Construction of a `std::string` from a `const char*`: defined for a C
string only. -/
def CStr.to_std_string : CStr → Option String
  | CStr.str s => some s
  | _ => none

/-- Where `main` reads the queries from. -/
inductive QuerySource where
  /-- The branch `fb.open(argv[args], std::ios::in)`. -/
  | file (path : CStr)
  /-- The branch `read_query(q)` on standard input. -/
  | stdin
  deriving DecidableEq, Repr

/-- The local variables of `main` once the command line has been read. -/
structure Args where
  type : String
  query_type : CStr
  index_filename : CStr
  wand_data_filename : Option String
  source : QuerySource
  deriving DecidableEq, Repr

/-- Lines 127 to 149 of `main` up to the choice of the query source; `none`
when a null or out-of-range entry is turned into a `std::string`. -/
def main_args (argv : List String) : Option Args :=
  match argv_at argv 1 with
  | CStr.str type =>
    let query_type := argv_at argv 2
    let index_filename := argv_at argv 3
    let argc := argv.length
    let wand_data_filename : Option String := if h : argc > 4 then some argv[4] else none
    let args := if argc > 4 then 4 + 1 else 4
    match argv_at argv args with
    | CStr.str a =>
      if a = "--file" then
        some ⟨type, query_type, index_filename, wand_data_filename,
          QuerySource.file (argv_at argv (args + 1 + 1))⟩
      else some ⟨type, query_type, index_filename, wand_data_filename, QuerySource.stdin⟩
    | _ => none
  | _ => none

/-- The batch `queries` of `main`; `none` when `fb.open` is handed something
that is not a C string.  A file that cannot be opened leaves the batch
empty. -/
def read_queries (env : Env) : QuerySource → Option (List term_id_vec)
  | QuerySource.stdin => some env.stdin_queries
  | QuerySource.file (CStr.str path) => some ((env.file_queries path).getD [])
  | QuerySource.file _ => none

/-- The function `main`.  The chain generated from `PISA_INDEX_TYPES` calls
`profile` for a catalogued `type`; its final `else` logs `Unknown type` and
control reaches the end of `main`. -/
def main (env : Env) (argv : List String) : Option Outcome :=
  match main_args argv with
  | none => some ⟨[], Exit.undefined⟩
  | some a =>
    match read_queries env a.source with
    | none => some ⟨[], Exit.undefined⟩
    | some queries =>
      if a.type ∈ env.index_types then
        match a.index_filename.to_std_string, a.query_type.to_std_string with
        | some index_filename, some query_type =>
          profile env index_filename a.wand_data_filename queries a.type query_type
        | _, _ => some ⟨[], Exit.undefined⟩
      else some ⟨[Step.seq (Event.error_unknown_type a.type)], Exit.normal⟩

/-! ## Observations on runs -/

/-- Batch positions on which the executor is invoked, in order. -/
def invoked_positions (evs : List Event) : List Nat :=
  evs.filterMap fun e => match e with
    | Event.invoke _ i _ => some i
    | _ => none

/-- Indices named by the progress lines, in order. -/
def progress_lines (evs : List Event) : List Nat :=
  evs.filterMap fun e => match e with
    | Event.progress i => some i
    | _ => none

/-- Events of one loop iteration at position `i` with a bound executor. -/
def iteration (alg : Algorithm) (queries : List term_id_vec) (i : Nat) : List Event :=
  (if i % 10000 = 0 then [Event.progress i] else []) ++ [Event.invoke alg i (queries.getD i [])]

/-- Positions `j < Q` with `i ≤ j` in the residue class `t` modulo `N`. -/
def positions_from (N Q t i : Nat) : List Nat :=
  (List.range Q).filter fun j => decide (i ≤ j ∧ j % N = t)

/-- Positions `j < Q` in the residue class `t` modulo `N`. -/
def positions (N Q t : Nat) : List Nat :=
  (List.range Q).filter fun j => decide (j % N = t)

/-- Events of a worker with a bound executor over a list of positions. -/
def worker_events (alg : Algorithm) (queries : List term_id_vec) (ps : List Nat) : List Event :=
  ps.flatMap (iteration alg queries)

/-- The run of `op_profile` with a bound executor, in closed form. -/
def bound_run (alg : Algorithm) (queries : List term_id_vec) (N : Nat) : List WorkerRun :=
  (List.range N).map fun t => ⟨worker_events alg queries (positions N queries.length t), false⟩

/-- Indices named by the progress lines of all workers of a run. -/
def run_progress_lines (workers : List WorkerRun) : List Nat :=
  workers.flatMap fun w => progress_lines w.events

/-- The three-query batch `[1,5,9]`, `[2]`, `[1,2,3]`. -/
def example_batch : List term_id_vec := [[1, 5, 9], [2], [1, 2, 3]]

/-- A surrounding in which `block_optpfor` is the one catalogued index type,
every file can be mapped, two hardware threads are reported and the
three-query batch waits on standard input. -/
def example_env : Env where
  hardware_concurrency := 2
  index_types := ["block_optpfor"]
  index_mappable := fun _ => true
  wand_data_mappable := fun _ => true
  stdin_queries := example_batch
  file_queries := fun _ => none

/-- The surrounding `example_env` on a host whose hardware parallelism is
reported as 0 (not computable). -/
def example_env_zero : Env := { example_env with hardware_concurrency := 0 }

/-- Events of `profile` before the loop over the query types, when both
files can be mapped. -/
def load_events (index_filename : String) (wand_data_filename : Option String)
    (type : String) : List Event :=
  [Event.info_loading_index index_filename, Event.map_index index_filename]
    ++ (match wand_data_filename with
        | some w => [Event.map_wand_data w]
        | none => [])
    ++ [Event.info_performing type]

/-- Steps of one pass of the loop of `profile` for a name `v` bound to `alg`. -/
def run_steps (N : Nat) (queries : List term_id_vec) (v : String) (alg : Algorithm) :
    List Step :=
  [Step.seq (Event.info_query_type v),
    Step.par ((bound_run alg queries N).map WorkerRun.events)]

/-- Interleavings of the event sequences of concurrently running workers:
`Shuffle ws tr` when `tr` takes the events of every worker of `ws` in that
worker's order. -/
inductive Shuffle : List (List Event) → List Event → Prop where
  | done (ws : List (List Event)) (h : ∀ w ∈ ws, w = []) : Shuffle ws []
  | step (pre post : List (List Event)) (e : Event) (w tr : List Event)
      (h : Shuffle (pre ++ w :: post) tr) : Shuffle (pre ++ (e :: w) :: post) (e :: tr)

/-- Event sequences of the whole process that a list of steps allows: the
steps follow one another, the workers inside a `par` step interleave. -/
inductive Linearization : List Step → List Event → Prop where
  | nil : Linearization [] []
  | seq (e : Event) (ss : List Step) (tr : List Event) (h : Linearization ss tr) :
      Linearization (Step.seq e :: ss) (e :: tr)
  | par (ws : List (List Event)) (ss : List Step) (tr₁ tr₂ : List Event)
      (h₁ : Shuffle ws tr₁) (h₂ : Linearization ss tr₂) :
      Linearization (Step.par ws :: ss) (tr₁ ++ tr₂)

/-- A stretch of the process trace that belongs to the run of one variant:
it holds no dump, every invocation in it is of `alg`, and its invocations
cover the batch positions below `Q` once each. -/
def variant_segment (Q : Nat) (alg : Algorithm) (seg : List Event) : Prop :=
  (∀ e ∈ seg, e ≠ Event.dump ∧ ∀ a j q, e = Event.invoke a j q → a = alg) ∧
  List.Perm (invoked_positions seg) (List.range Q)

/-! ## The worker loop in closed form -/

theorem mem_positions_from {N Q t i j : Nat} :
    j ∈ positions_from N Q t i ↔ j < Q ∧ i ≤ j ∧ j % N = t := by
  simp [positions_from]

theorem mem_positions {N Q t j : Nat} : j ∈ positions N Q t ↔ j < Q ∧ j % N = t := by
  simp [positions]

theorem positions_from_sorted (N Q t i : Nat) :
    List.Sorted (fun a b => a < b) (positions_from N Q t i) := by
  unfold positions_from
  exact List.Sorted.filter _ (List.sorted_lt_range Q)

theorem positions_sorted (N Q t : Nat) : List.Sorted (fun a b => a < b) (positions N Q t) := by
  unfold positions
  exact List.Sorted.filter _ (List.sorted_lt_range Q)

/-- Two strictly increasing lists with the same members are equal. -/
theorem eq_of_sorted_of_mem_iff {l₁ l₂ : List Nat} (h₁ : List.Sorted (fun a b => a < b) l₁)
    (h₂ : List.Sorted (fun a b => a < b) l₂) (h : ∀ j, j ∈ l₁ ↔ j ∈ l₂) : l₁ = l₂ := by
  have n₁ : l₁.Nodup := h₁.imp (fun hab => Nat.ne_of_lt hab)
  have n₂ : l₂.Nodup := h₂.imp (fun hab => Nat.ne_of_lt hab)
  exact List.eq_of_perm_of_sorted ((List.perm_ext_iff_of_nodup n₁ n₂).2 h) h₁ h₂

/-- Two members of one residue class that differ are at least `N` apart. -/
theorem add_le_of_mod_eq {N i j : Nat} (hij : i ≤ j) (hne : j ≠ i) (hm : j % N = i % N) :
    i + N ≤ j := by
  have hd : N ∣ j - i := (Nat.modEq_iff_dvd' hij).1 hm.symm
  have hpos : 0 < j - i := by omega
  have := Nat.le_of_dvd hpos hd
  omega

theorem positions_from_step {N Q t i : Nat} (hN : 0 < N) (hi : i < Q) (hm : i % N = t) :
    positions_from N Q t i = i :: positions_from N Q t (i + N) := by
  apply eq_of_sorted_of_mem_iff (positions_from_sorted N Q t i)
  · refine List.sorted_cons.2 ⟨?_, positions_from_sorted N Q t (i + N)⟩
    intro b hb
    have := (mem_positions_from.1 hb).2.1
    omega
  · intro j
    rw [List.mem_cons, mem_positions_from, mem_positions_from]
    constructor
    · rintro ⟨h1, h2, h3⟩
      by_cases hji : j = i
      · exact Or.inl hji
      · exact Or.inr ⟨h1, add_le_of_mod_eq h2 hji (by rw [h3, hm]), h3⟩
    · rintro (rfl | ⟨h1, h2, h3⟩)
      · exact ⟨hi, le_refl _, hm⟩
      · exact ⟨h1, by omega, h3⟩

theorem positions_from_of_le {N Q t i : Nat} (hi : Q ≤ i) : positions_from N Q t i = [] := by
  apply List.eq_nil_iff_forall_not_mem.2
  intro j hj
  have := mem_positions_from.1 hj
  omega

theorem positions_from_self (N Q t : Nat) :
    positions_from N Q t t = positions N Q t := by
  apply eq_of_sorted_of_mem_iff (positions_from_sorted N Q t t) (positions_sorted N Q t)
  intro j
  rw [mem_positions_from, mem_positions]
  constructor
  · rintro ⟨h1, _, h3⟩
    exact ⟨h1, h3⟩
  · rintro ⟨h1, h3⟩
    refine ⟨h1, ?_, h3⟩
    have := Nat.mod_le j N
    omega

theorem worker_loop_bound (alg : Algorithm) (queries : List term_id_vec) {N t : Nat}
    (hN : 0 < N) (hw : queries.length + N ≤ SIZE_T_RANGE) :
    ∀ fuel i, i % N = t → queries.length - i < fuel →
      worker_loop (some alg) queries N fuel i
        = some ⟨worker_events alg queries (positions_from N queries.length t i), false⟩ := by
  intro fuel
  induction fuel with
  | zero => intro i _ h; omega
  | succ fuel ih =>
    intro i hm hf
    unfold worker_loop
    by_cases hi : i < queries.length
    · have hwrap : (i + N) % SIZE_T_RANGE = i + N := Nat.mod_eq_of_lt (by omega)
      have hm2 : (i + N) % N = t := by rw [Nat.add_mod_right]; exact hm
      simp only [hi, dite_true, hwrap]
      rw [ih (i + N) hm2 (by omega), positions_from_step hN hi hm]
      simp [worker_events, iteration, List.getElem?_eq_getElem hi]
    · simp only [hi, dite_false]
      rw [positions_from_of_le (by omega)]
      simp [worker_events]

theorem join_all_map_some {α : Type} (g : α → WorkerRun) (l : List α) :
    join_all (l.map fun a => some (g a)) = some (l.map g) := by
  induction l with
  | nil => rfl
  | cons a l ih => simp [join_all, ih]

theorem op_profile_bound (alg : Algorithm) (queries : List term_id_vec) {N : Nat}
    (hN : 0 < N) (hw : queries.length + N ≤ SIZE_T_RANGE) :
    op_profile N (some alg) queries = some (bound_run alg queries N) := by
  unfold op_profile bound_run
  rw [← join_all_map_some]
  show join_all _ = join_all _
  congr 1
  apply List.map_congr_left
  intro t ht
  have htN : t < N := List.mem_range.1 ht
  rw [worker_loop_bound alg queries hN hw _ t (Nat.mod_eq_of_lt htN) (by omega),
    positions_from_self]

theorem invoked_positions_worker_events (alg : Algorithm) (queries : List term_id_vec)
    (ps : List Nat) : invoked_positions (worker_events alg queries ps) = ps := by
  induction ps with
  | nil => rfl
  | cons i ps ih =>
    have ih2 : List.filterMap (fun e => match e with
        | Event.invoke _ i _ => some i
        | _ => none) (List.flatMap ps (iteration alg queries)) = ps := ih
    by_cases h : i % 10000 = 0 <;>
      simp [invoked_positions, worker_events, iteration, h, ih2]

theorem progress_lines_worker_events (alg : Algorithm) (queries : List term_id_vec)
    (ps : List Nat) :
    progress_lines (worker_events alg queries ps) = ps.filter fun i => decide (i % 10000 = 0) := by
  induction ps with
  | nil => rfl
  | cons i ps ih =>
    have ih2 : List.filterMap (fun e => match e with
        | Event.progress i => some i
        | _ => none) (List.flatMap ps (iteration alg queries))
          = ps.filter fun i => decide (i % 10000 = 0) := ih
    by_cases h : i % 10000 = 0 <;>
      simp [progress_lines, worker_events, iteration, h, ih2]

/-- The residue class `t` below `Q` as an arithmetic progression. -/
theorem positions_eq_progression {N Q t : Nat} (hN : 0 < N) (ht : t < N) :
    positions N Q t = (List.range ((Q + N - 1 - t) / N)).map fun k => t + k * N := by
  apply eq_of_sorted_of_mem_iff (positions_sorted N Q t)
  · unfold List.Sorted
    rw [List.pairwise_map]
    refine (List.sorted_lt_range _).imp ?_
    intro a b hab
    have : a * N < b * N := Nat.mul_lt_mul_of_pos_right hab hN
    omega
  · intro j
    rw [mem_positions, List.mem_map]
    constructor
    · rintro ⟨h1, h2⟩
      refine ⟨j / N, ?_, ?_⟩
      · rw [List.mem_range, Nat.lt_iff_add_one_le, Nat.le_div_iff_mul_le hN]
        have := Nat.div_add_mod j N
        have e : (j / N + 1) * N = N * (j / N) + N := by ring
        omega
      · have := Nat.div_add_mod j N
        have e : j / N * N = N * (j / N) := by ring
        omega
    · rintro ⟨k, hk, rfl⟩
      rw [List.mem_range, Nat.lt_iff_add_one_le, Nat.le_div_iff_mul_le hN] at hk
      have e : (k + 1) * N = k * N + N := by ring
      refine ⟨by omega, ?_⟩
      rw [Nat.add_mul_mod_self_right, Nat.mod_eq_of_lt ht]

theorem positions_one (Q : Nat) : positions 1 Q 0 = List.range Q := by
  unfold positions
  apply List.filter_eq_self.2
  intro j _
  simp [Nat.mod_one]

theorem positions_pairwise_disjoint (N Q : Nat) :
    List.Pairwise (fun a b => List.Disjoint a b) ((List.range N).map fun t => positions N Q t) := by
  rw [List.pairwise_map]
  refine (List.nodup_range N).imp ?_
  intro a b hab j ha hb
  exact hab ((mem_positions.1 ha).2.symm.trans (mem_positions.1 hb).2)

theorem positions_nodup (N Q t : Nat) : (positions N Q t).Nodup :=
  (positions_sorted N Q t).imp fun h => Nat.ne_of_lt h

/-- The residue classes below `Q`, taken together, are the positions below `Q`. -/
theorem positions_flatten_perm {N : Nat} (hN : 0 < N) (Q : Nat) :
    List.Perm ((List.range N).map fun t => positions N Q t).flatten (List.range Q) := by
  apply (List.perm_ext_iff_of_nodup ?_ (List.nodup_range Q)).2
  · intro j
    simp only [List.mem_flatten, List.mem_map, List.mem_range]
    constructor
    · rintro ⟨l, ⟨t, _, rfl⟩, hj⟩
      exact (mem_positions.1 hj).1
    · intro hj
      exact ⟨_, ⟨j % N, Nat.mod_lt j hN, rfl⟩, mem_positions.2 ⟨hj, rfl⟩⟩
  · rw [List.nodup_flatten]
    refine ⟨?_, positions_pairwise_disjoint N Q⟩
    intro l hl
    obtain ⟨t, _, rfl⟩ := List.mem_map.1 hl
    exact positions_nodup N Q t

/-! ## Fuel of the worker loop -/

/-- A result of the worker loop does not depend on the fuel left over. -/
theorem worker_loop_fuel_mono (query_op : QueryFun) (queries : List term_id_vec) (N : Nat) :
    ∀ fuel i r, worker_loop query_op queries N fuel i = some r →
      ∀ fuel₂, fuel ≤ fuel₂ → worker_loop query_op queries N fuel₂ i = some r := by
  intro fuel
  induction fuel with
  | zero => intro i r h; simp [worker_loop] at h
  | succ fuel ih =>
    intro i r h fuel₂ hle
    obtain ⟨f, rfl⟩ : ∃ f, fuel₂ = f + 1 := ⟨fuel₂ - 1, by omega⟩
    unfold worker_loop at h ⊢
    by_cases hi : i < queries.length
    · simp only [hi, dite_true] at h ⊢
      cases query_op with
      | none => exact h
      | some a =>
        simp only at h ⊢
        cases hr : worker_loop (some a) queries N fuel ((i + N) % SIZE_T_RANGE) with
        | none => simp [hr] at h
        | some r2 =>
          rw [ih _ r2 hr f (by omega)]
          simpa [hr] using h
    · simpa [hi] using h

/-- The worker loop with a bound executor runs out of fuel exactly when the
loop counter stays inside the batch for as many rounds as there is fuel. -/
theorem worker_loop_eq_none_iff (alg : Algorithm) (queries : List term_id_vec) (N : Nat) :
    ∀ fuel i, worker_loop (some alg) queries N fuel i = none ↔
      ∀ k < fuel, (fun j => (j + N) % SIZE_T_RANGE)^[k] i < queries.length := by
  intro fuel
  induction fuel with
  | zero => intro i; simp [worker_loop]
  | succ fuel ih =>
    intro i
    unfold worker_loop
    by_cases hi : i < queries.length
    · simp only [hi, dite_true]
      constructor
      · intro h k hk
        cases k with
        | zero => exact hi
        | succ k =>
          rw [Function.iterate_succ_apply]
          refine (ih _).1 ?_ k (by omega)
          cases hr : worker_loop (some alg) queries N fuel ((i + N) % SIZE_T_RANGE) with
          | none => rfl
          | some r => simp [hr] at h
      · intro h
        have : worker_loop (some alg) queries N fuel ((i + N) % SIZE_T_RANGE) = none := by
          refine (ih _).2 ?_
          intro k hk
          have := h (k + 1) (by omega)
          rwa [Function.iterate_succ_apply] at this
        simp [this]
    · simp only [hi, dite_false]
      constructor
      · intro h; cases h
      · intro h
        exact absurd (h 0 (by omega)) hi

/-- A counter that stays below `Q` for `Q + 1` rounds stays below `Q` for ever. -/
theorem iterate_lt_forever (f : Nat → Nat) (Q i : Nat) (h : ∀ k < Q + 1, f^[k] i < Q) :
    ∀ k, f^[k] i < Q := by
  obtain ⟨a, b, hab, hfab⟩ := Fintype.exists_ne_map_eq_of_card_lt
    (fun k : Fin (Q + 1) => (⟨f^[k.1] i, h k.1 k.2⟩ : Fin Q)) (by simp)
  have hval : ∀ a b : Fin (Q + 1), a.1 < b.1 → f^[a.1] i = f^[b.1] i → ∀ k, f^[k] i < Q := by
    intro a b hlt he k
    induction k using Nat.strong_induction_on with
    | _ k ih =>
      by_cases hk : k < Q + 1
      · exact h k hk
      · have hb : b.1 ≤ k := by have := b.2; omega
        have e : f^[k] i = f^[k - b.1 + a.1] i := by
          conv_lhs => rw [← Nat.sub_add_cancel hb]
          rw [Function.iterate_add_apply, ← he, ← Function.iterate_add_apply]
        rw [e]
        exact ih _ (by omega)
  have hfab2 : f^[a.1] i = f^[b.1] i := by simpa using congrArg Fin.val hfab
  rcases Nat.lt_or_gt_of_ne (fun h => hab (Fin.ext h)) with hlt | hgt
  · exact hval a b hlt hfab2
  · exact hval b a hgt hfab2.symm

/-- The fuel `Q + 1` that `op_profile` hands to a worker is enough: a worker
loop that does not end within it does not end with any amount of fuel. -/
theorem worker_loop_none_forever (query_op : QueryFun) (queries : List term_id_vec)
    (N tid : Nat) (h : worker_loop query_op queries N (queries.length + 1) tid = none) :
    ∀ fuel, worker_loop query_op queries N fuel tid = none := by
  intro fuel
  cases query_op with
  | none =>
    unfold worker_loop at h
    by_cases ht : tid < queries.length <;> simp [ht] at h
  | some alg =>
    rw [worker_loop_eq_none_iff] at h ⊢
    intro k _
    exact iterate_lt_forever _ _ _ h k

/-! ## Work partition of `op_profile` (C1, C2) -/

/-- C1: with `N > 0` workers (and no `size_t` wrap-around of the loop
counter) worker `t` of `op_profile` invokes its executor copy on the batch
positions `t, t + N, t + 2N, ...` below `Q`, in increasing order, which
are the positions `i < Q` with `i mod N = t`; with one worker these are all
positions `0, ..., Q - 1` in order. -/
theorem C1_round_robin_positions (alg : Algorithm) (queries : List term_id_vec) (N : Nat)
    (hN : 0 < N) (hw : queries.length + N ≤ SIZE_T_RANGE) :
    (∃ workers, op_profile N (some alg) queries = some workers ∧ workers.length = N ∧
      ∀ t (ht : t < workers.length),
        invoked_positions workers[t].events
            = (List.range ((queries.length + N - 1 - t) / N)).map (fun k => t + k * N) ∧
        invoked_positions workers[t].events
            = (List.range queries.length).filter (fun i => decide (i % N = t)) ∧
        List.Sorted (fun a b => a < b) (invoked_positions workers[t].events)) ∧
    (N = 1 → (op_profile N (some alg) queries).map
        (List.map fun w => invoked_positions w.events) = some [List.range queries.length]) := by
  refine ⟨⟨bound_run alg queries N, op_profile_bound alg queries hN hw, by simp [bound_run], ?_⟩, ?_⟩
  · intro t ht
    have htN : t < N := by simpa [bound_run] using ht
    have e : invoked_positions (bound_run alg queries N)[t].events = positions N queries.length t := by
      simp [bound_run, invoked_positions_worker_events]
    rw [e]
    exact ⟨positions_eq_progression hN htN, rfl, positions_sorted N queries.length t⟩
  · rintro rfl
    rw [op_profile_bound alg queries hN hw]
    simp [bound_run, List.range_succ, invoked_positions_worker_events, positions_one]

/-- Instance of C1: two workers on the three-query batch. -/
theorem C1_round_robin_positions_witness :
    (0 < 2 ∧ example_batch.length + 2 ≤ SIZE_T_RANGE) ∧
    ((∃ workers, op_profile 2 (some Algorithm.and_query) example_batch = some workers ∧
      workers.length = 2 ∧
      ∀ t (ht : t < workers.length),
        invoked_positions workers[t].events
            = (List.range ((example_batch.length + 2 - 1 - t) / 2)).map (fun k => t + k * 2) ∧
        invoked_positions workers[t].events
            = (List.range example_batch.length).filter (fun i => decide (i % 2 = t)) ∧
        List.Sorted (fun a b => a < b) (invoked_positions workers[t].events)) ∧
    (2 = 1 → (op_profile 2 (some Algorithm.and_query) example_batch).map
        (List.map fun w => invoked_positions w.events) = some [List.range example_batch.length])) :=
  ⟨⟨by decide, by decide⟩,
    C1_round_robin_positions Algorithm.and_query example_batch 2 (by decide) (by decide)⟩

/-- C2: with `N > 0` workers (and no `size_t` wrap-around) one call of
`op_profile` invokes the executor on every batch position `0, ..., Q - 1`
exactly once over all workers: the position lists of distinct workers are
disjoint, a position is invoked by some worker exactly when it is below
`Q`, the numbers of queries handled add up to `Q`, and all invoked positions
together are a rearrangement of `0, ..., Q - 1`. -/
theorem C2_each_position_once (alg : Algorithm) (queries : List term_id_vec) (N : Nat)
    (hN : 0 < N) (hw : queries.length + N ≤ SIZE_T_RANGE) :
    ∃ workers, op_profile N (some alg) queries = some workers ∧
      List.Pairwise (fun a b => List.Disjoint a b)
        (workers.map fun w => invoked_positions w.events) ∧
      (∀ i, (∃ w ∈ workers, i ∈ invoked_positions w.events) ↔ i < queries.length) ∧
      (workers.map fun w => (invoked_positions w.events).length).sum = queries.length ∧
      List.Perm (workers.flatMap fun w => invoked_positions w.events)
        (List.range queries.length) := by
  refine ⟨bound_run alg queries N, op_profile_bound alg queries hN hw, ?_⟩
  have e : (bound_run alg queries N).map (fun w => invoked_positions w.events)
      = (List.range N).map fun t => positions N queries.length t := by
    simp only [bound_run, List.map_map]
    apply List.map_congr_left
    intro t _
    exact invoked_positions_worker_events alg queries _
  have hperm := positions_flatten_perm hN queries.length
  have e2 : ((bound_run alg queries N).flatMap fun w => invoked_positions w.events)
      = ((List.range N).map fun t => positions N queries.length t).flatten := by
    rw [← e]; rfl
  refine ⟨?_, ?_, ?_, ?_⟩
  · rw [e]; exact positions_pairwise_disjoint N queries.length
  · intro i
    have hm : i ∈ ((bound_run alg queries N).flatMap fun w => invoked_positions w.events)
        ↔ i < queries.length := by
      rw [e2, hperm.mem_iff, List.mem_range]
    rw [← hm, List.mem_flatMap]
  · have hl := hperm.length_eq
    rw [List.length_flatten, List.length_range, ← e, List.map_map] at hl
    exact hl
  · rw [e2]; exact hperm

/-- Instance of C2: two workers on the three-query batch. -/
theorem C2_each_position_once_witness :
    (0 < 2 ∧ example_batch.length + 2 ≤ SIZE_T_RANGE) ∧
    ∃ workers, op_profile 2 (some Algorithm.and_query) example_batch = some workers ∧
      List.Pairwise (fun a b => List.Disjoint a b)
        (workers.map fun w => invoked_positions w.events) ∧
      (∀ i, (∃ w ∈ workers, i ∈ invoked_positions w.events) ↔ i < example_batch.length) ∧
      (workers.map fun w => (invoked_positions w.events).length).sum = example_batch.length ∧
      List.Perm (workers.flatMap fun w => invoked_positions w.events)
        (List.range example_batch.length) :=
  ⟨⟨by decide, by decide⟩,
    C2_each_position_once Algorithm.and_query example_batch 2 (by decide) (by decide)⟩

/-! ## Progress lines (C5, C6) -/

theorem run_progress_lines_bound_run (alg : Algorithm) (queries : List term_id_vec) (N : Nat) :
    run_progress_lines (bound_run alg queries N)
      = (((List.range N).map fun t => positions N queries.length t).flatten).filter
          fun i => decide (i % 10000 = 0) := by
  simp only [run_progress_lines, bound_run, List.flatMap, List.map_map, List.filter_flatten]
  congr 1
  apply List.map_congr_left
  intro t _
  exact progress_lines_worker_events alg queries _

theorem run_progress_lines_perm (alg : Algorithm) (queries : List term_id_vec) {N : Nat}
    (hN : 0 < N) :
    List.Perm (run_progress_lines (bound_run alg queries N))
      ((List.range queries.length).filter fun i => decide (i % 10000 = 0)) := by
  rw [run_progress_lines_bound_run]
  exact (positions_flatten_perm hN queries.length).filter _

theorem length_filter_multiples (Q : Nat) :
    ((List.range Q).filter fun i => decide (i % 10000 = 0)).length = (Q + 9999) / 10000 := by
  induction Q with
  | zero => rfl
  | succ Q ih =>
    rw [List.range_succ, List.filter_append, List.length_append, ih]
    by_cases h : Q % 10000 = 0
    · simp only [List.filter_cons, h, decide_True, if_true, List.filter_nil, List.length_singleton]
      omega
    · simp only [List.filter_cons, h, decide_False, List.filter_nil, List.length_nil]
      simp
      omega

theorem filter_multiples_small {Q : Nat} (h0 : 0 < Q) (h1 : Q ≤ 10000) :
    ((List.range Q).filter fun i => decide (i % 10000 = 0)) = [0] := by
  apply eq_of_sorted_of_mem_iff (List.Sorted.filter _ (List.sorted_lt_range Q))
    (List.sorted_singleton 0)
  intro j
  simp only [List.mem_filter, List.mem_range, decide_eq_true_eq, List.mem_singleton]
  omega

/-- C5 fails as stated: on the three-query batch with two workers a variant
run by `op_profile` emits the progress line naming index 0, not zero lines. -/
theorem C5_progress_line_at_zero :
    (1 ≤ 2 ∧ example_batch ≠ [] ∧ example_batch.length < 10000) ∧
    (op_profile 2 (some Algorithm.and_query) example_batch).map run_progress_lines = some [0] ∧
    (op_profile 2 (some Algorithm.and_query) example_batch).map
      (fun ws => (run_progress_lines ws).length) ≠ some 0 := by
  decide

/-- C5 as amended: for `N ≥ 1` workers and a non-empty batch of length
`Q < 10000` (no `size_t` wrap-around), a variant run by `op_profile` emits
exactly one progress line, the one naming index 0, and worker 0 emits it as
its first event. -/
theorem C5_single_progress_line (alg : Algorithm) (queries : List term_id_vec) (N : Nat)
    (hN : 1 ≤ N) (hQ : queries ≠ []) (hlt : queries.length < 10000)
    (hw : queries.length + N ≤ SIZE_T_RANGE) :
    ∃ workers, op_profile N (some alg) queries = some workers ∧
      run_progress_lines workers = [0] ∧
      ∃ w, workers[0]? = some w ∧ w.events.head? = some (Event.progress 0) := by
  have hpos : 0 < queries.length := List.length_pos.2 hQ
  refine ⟨bound_run alg queries N, op_profile_bound alg queries hN hw, ?_, ?_⟩
  · have hp := run_progress_lines_perm alg queries hN
    rw [filter_multiples_small hpos (by omega)] at hp
    exact List.perm_singleton.1 hp
  · obtain ⟨M, rfl⟩ : ∃ M, N = M + 1 := ⟨N - 1, by omega⟩
    refine ⟨⟨worker_events alg queries (positions (M + 1) queries.length 0), false⟩, ?_, ?_⟩
    · simp [bound_run, List.getElem?_range]
    · have hstep := positions_from_step (t := 0) hN hpos (Nat.zero_mod (M + 1))
      rw [positions_from_self] at hstep
      simp [hstep, worker_events, iteration]

/-- Instance of the amended C5: two workers on the three-query batch. -/
theorem C5_single_progress_line_witness :
    (1 ≤ 2 ∧ example_batch ≠ [] ∧ example_batch.length < 10000 ∧
      example_batch.length + 2 ≤ SIZE_T_RANGE) ∧
    ∃ workers, op_profile 2 (some Algorithm.and_query) example_batch = some workers ∧
      run_progress_lines workers = [0] ∧
      ∃ w, workers[0]? = some w ∧ w.events.head? = some (Event.progress 0) :=
  ⟨⟨by decide, by decide, by decide, by decide⟩,
    C5_single_progress_line Algorithm.and_query example_batch 2 (by decide) (by decide)
      (by decide) (by decide)⟩

/-- C6: with `N > 0` workers (and no `size_t` wrap-around) every worker's
events are, position by position over the positions it invokes, the progress
line naming `i` when `i mod 10000 = 0` followed at once by the invocation on
position `i`, and nothing else; so the progress lines of one `op_profile`
run are exactly one per position `i < Q` with `i mod 10000 = 0`, each right
before the invocation on `i`, and there are `ceil(Q / 10000)` of them. -/
theorem C6_progress_lines (alg : Algorithm) (queries : List term_id_vec) (N : Nat)
    (hN : 0 < N) (hw : queries.length + N ≤ SIZE_T_RANGE) :
    ∃ workers, op_profile N (some alg) queries = some workers ∧
      (∀ w ∈ workers, w.events = (invoked_positions w.events).flatMap fun i =>
          (if i % 10000 = 0 then [Event.progress i] else [])
            ++ [Event.invoke alg i (queries.getD i [])]) ∧
      List.Perm (run_progress_lines workers)
        ((List.range queries.length).filter fun i => decide (i % 10000 = 0)) ∧
      (run_progress_lines workers).length = (queries.length + 9999) / 10000 := by
  refine ⟨bound_run alg queries N, op_profile_bound alg queries hN hw, ?_, ?_, ?_⟩
  · intro w hw
    obtain ⟨t, _, rfl⟩ := List.mem_map.1 hw
    rw [invoked_positions_worker_events]
    rfl
  · exact run_progress_lines_perm alg queries hN
  · rw [(run_progress_lines_perm alg queries hN).length_eq, length_filter_multiples]

/-- Instance of C6: two workers on the three-query batch. -/
theorem C6_progress_lines_witness :
    (0 < 2 ∧ example_batch.length + 2 ≤ SIZE_T_RANGE) ∧
    ∃ workers, op_profile 2 (some Algorithm.and_query) example_batch = some workers ∧
      (∀ w ∈ workers, w.events = (invoked_positions w.events).flatMap fun i =>
          (if i % 10000 = 0 then [Event.progress i] else [])
            ++ [Event.invoke Algorithm.and_query i (example_batch.getD i [])]) ∧
      List.Perm (run_progress_lines workers)
        ((List.range example_batch.length).filter fun i => decide (i % 10000 = 0)) ∧
      (run_progress_lines workers).length = (example_batch.length + 9999) / 10000 :=
  ⟨⟨by decide, by decide⟩,
    C6_progress_lines Algorithm.and_query example_batch 2 (by decide) (by decide)⟩

/-! ## Worker count (C7) -/

/-- C7 fails on the code: the worker count is the reported hardware
parallelism itself, so for a reported value of 0 it is 0, `op_profile`
starts no worker and returns with no query of the batch handled. -/
theorem C7_zero_workers (query_op : QueryFun) (queries : List term_id_vec) :
    op_profile 0 query_op queries = some [] ∧
    (op_profile 0 (some Algorithm.and_query) example_batch).map
      (fun ws => ws.flatMap fun w => invoked_positions w.events) = some [] := by
  constructor <;> rfl

/-! ## Variant resolution (C3, C4) -/

theorem worker_loop_invoke (query_op : QueryFun) (queries : List term_id_vec) (N : Nat) :
    ∀ fuel i r, worker_loop query_op queries N fuel i = some r →
      ∀ alg j q, Event.invoke alg j q ∈ r.events → query_op = some alg := by
  intro fuel
  induction fuel with
  | zero => intro i r h; simp [worker_loop] at h
  | succ fuel ih =>
    intro i r h alg j q hmem
    unfold worker_loop at h
    by_cases hi : i < queries.length
    · simp only [hi, dite_true] at h
      cases query_op with
      | none =>
        simp only [Option.some.injEq] at h
        subst h
        by_cases h0 : i % 10000 = 0 <;> simp [h0] at hmem
      | some a =>
        simp only at h
        cases hr : worker_loop (some a) queries N fuel ((i + N) % SIZE_T_RANGE) with
        | none => simp [hr] at h
        | some r2 =>
          simp only [hr, Option.some.injEq] at h
          subst h
          have ih2 := ih _ r2 hr alg j q
          by_cases h0 : i % 10000 = 0
          · simp only [h0, if_true, List.singleton_append, List.mem_cons,
              Event.invoke.injEq, reduceCtorEq, false_or] at hmem
            rcases hmem with ⟨rfl, _, _⟩ | hmem
            · rfl
            · exact ih2 hmem
          · simp only [h0, if_false, List.nil_append, List.mem_cons,
              Event.invoke.injEq] at hmem
            rcases hmem with ⟨rfl, _, _⟩ | hmem
            · rfl
            · exact ih2 hmem
    · simp only [hi, dite_false, Option.some.injEq] at h
      subst h
      simp at hmem

theorem join_all_mem : ∀ (l : List (Option WorkerRun)) (ws : List WorkerRun),
    join_all l = some ws → ∀ w ∈ ws, some w ∈ l := by
  intro l
  induction l with
  | nil => intro ws h w hw; simp [join_all] at h; subst h; simp at hw
  | cons a l ih =>
    intro ws h w hw
    cases a with
    | none => simp [join_all] at h
    | some r =>
      cases hj : join_all l with
      | none => simp [join_all, hj] at h
      | some l2 =>
        simp only [join_all, hj, Option.some.injEq] at h
        subst h
        rcases List.mem_cons.1 hw with rfl | hw2
        · exact List.mem_cons_self _ _
        · exact List.mem_cons_of_mem _ (ih l2 hj w hw2)

theorem op_profile_invoke {h : Nat} {query_op : QueryFun} {queries : List term_id_vec}
    {ws : List WorkerRun} (hrun : op_profile h query_op queries = some ws) :
    ∀ w ∈ ws, ∀ alg j q, Event.invoke alg j q ∈ w.events → query_op = some alg := by
  intro w hw alg j q hmem
  have hm := join_all_mem _ ws hrun w hw
  obtain ⟨tid, _, htid⟩ := List.mem_map.1 hm
  exact worker_loop_invoke query_op queries h _ tid w htid alg j q hmem

theorem bind_query_fun_no_wand_data {t : String} {alg : Algorithm}
    (h : (bind_query_fun t false).1 = some alg) : alg = Algorithm.and_query := by
  unfold bind_query_fun at h
  by_cases h1 : t = "and"
  · simp [h1] at h; exact h.symm
  · simp [h1] at h

theorem profile_loop_no_wand_data (h : Nat) (queries : List term_id_vec) :
    ∀ (ts : List String) (o : Outcome), profile_loop h false queries ts = some o →
      ∀ ws, Step.par ws ∈ o.steps → ∀ w ∈ ws, ∀ alg j q, Event.invoke alg j q ∈ w →
        alg = Algorithm.and_query := by
  intro ts
  induction ts with
  | nil =>
    intro o ho ws hws
    simp only [profile_loop, Option.some.injEq] at ho
    subst ho
    simp at hws
  | cons t ts ih =>
    intro o ho ws hws w hw alg j q hmem
    unfold profile_loop at ho
    cases hrun : op_profile h (bind_query_fun t false).1 queries with
    | none => simp [hrun] at ho
    | some workers =>
      have hthis : ∀ w ∈ workers.map WorkerRun.events, Event.invoke alg j q ∈ w →
          alg = Algorithm.and_query := by
        intro w hw hmem
        obtain ⟨r, hr, rfl⟩ := List.mem_map.1 hw
        exact bind_query_fun_no_wand_data (op_profile_invoke hrun r hr alg j q hmem)
      simp only [hrun] at ho
      by_cases hthrew : workers.any WorkerRun.threw = true
      · simp only [hthrew, if_true, Option.some.injEq] at ho
        subst ho
        simp only [List.map_cons, List.cons_append, List.mem_cons, List.mem_append,
          List.mem_map, List.mem_singleton, Step.par.injEq, reduceCtorEq, false_or,
          false_and, exists_false, and_false] at hws
        rcases hws with rfl | hws
        · exact hthis w hw hmem
        · simp at hws
      · have hf : workers.any WorkerRun.threw = false := by simpa using hthrew
        simp only [hf, Bool.false_eq_true, if_false] at ho
        cases hrest : profile_loop h false queries ts with
        | none => simp [hrest] at ho
        | some rest =>
          simp only [hrest, Option.some.injEq] at ho
          subst ho
          simp only [List.map_cons, List.cons_append, List.mem_cons, List.mem_append,
            List.mem_map, Step.par.injEq, reduceCtorEq, false_or, false_and, exists_false,
            and_false] at hws
          rcases hws with rfl | hws
          · exact hthis w hw hmem
          · exact ih rest hrest ws hws w hw alg j q hmem

theorem profile_no_wand_data (env : Env) (index_filename : String)
    (queries : List term_id_vec) (type query_type : String) (o : Outcome)
    (ho : profile env index_filename none queries type query_type = some o) :
    ∀ ws, Step.par ws ∈ o.steps → ∀ w ∈ ws, ∀ alg j q, Event.invoke alg j q ∈ w →
      alg = Algorithm.and_query := by
  intro ws hws w hw alg j q hmem
  unfold profile at ho
  by_cases hidx : env.index_mappable index_filename = false
  · simp only [hidx, if_true, Option.some.injEq] at ho
    subst ho
    simp at hws
  · simp only [hidx] at ho
    cases hl : profile_loop env.hardware_concurrency false queries
        (split_query_types query_type) with
    | none => simp [hl] at ho
    | some o2 =>
      simp [hl] at ho
      subst ho
      simp at hws
      exact profile_loop_no_wand_data _ queries _ o2 hl ws hws w hw alg j q hmem

/-- C4: in `profile` an executor is bound for the name `t` exactly when `t`
is `and`, or `t` is one of `ranked_and`, `wand`, `maxscore` and a score-data
path was supplied; the bound executor is the algorithm of that name, the
ranked ones with top-k 10, and no line is logged; otherwise nothing is bound
and the one line `Unsupported query type: t` is logged.  Without score data
every invocation in a run of `profile` is of the boolean AND algorithm: no
variant requiring score data runs. -/
theorem C4_variant_resolution (t : String) (has_wand_data : Bool) :
    ((bind_query_fun t has_wand_data).1.isSome = true ↔
      (t = "and" ∨ ((t = "ranked_and" ∨ t = "wand" ∨ t = "maxscore") ∧ has_wand_data = true))) ∧
    (∀ alg, (bind_query_fun t has_wand_data).1 = some alg →
      (bind_query_fun t has_wand_data).2 = [] ∧
      ((t = "and" ∧ alg = Algorithm.and_query) ∨
       (t = "ranked_and" ∧ alg = Algorithm.ranked_and_query 10) ∨
       (t = "wand" ∧ alg = Algorithm.wand_query 10) ∨
       (t = "maxscore" ∧ alg = Algorithm.maxscore_query 10))) ∧
    ((bind_query_fun t has_wand_data).1 = none →
      (bind_query_fun t has_wand_data).2 = [Event.error_unsupported_query_type t]) ∧
    (∀ (env : Env) (index_filename : String) (queries : List term_id_vec)
        (type query_type : String) (o : Outcome),
      profile env index_filename none queries type query_type = some o →
      ∀ ws, Step.par ws ∈ o.steps → ∀ w ∈ ws, ∀ alg j q, Event.invoke alg j q ∈ w →
        alg = Algorithm.and_query) := by
  refine ⟨?_, ?_, ?_, profile_no_wand_data⟩
  · unfold bind_query_fun
    constructor
    · intro h
      split_ifs at h with h1 h2 h3 h4
      · exact Or.inl h1
      · exact Or.inr ⟨Or.inl h2.1, h2.2⟩
      · exact Or.inr ⟨Or.inr (Or.inl h3.1), h3.2⟩
      · exact Or.inr ⟨Or.inr (Or.inr h4.1), h4.2⟩
      · simp at h
    · rintro (h | ⟨h | h | h, hw⟩)
      · simp [h]
      · simp [h, hw]
      · simp [h, hw]
      · simp [h, hw]
  · intro alg h
    unfold bind_query_fun at h ⊢
    split_ifs at h ⊢ with h1 h2 h3 h4
    · simp only [Option.some.injEq] at h
      exact ⟨rfl, Or.inl ⟨h1, h.symm⟩⟩
    · simp only [Option.some.injEq] at h
      exact ⟨rfl, Or.inr (Or.inl ⟨h2.1, h.symm⟩)⟩
    · simp only [Option.some.injEq] at h
      exact ⟨rfl, Or.inr (Or.inr (Or.inl ⟨h3.1, h.symm⟩))⟩
    · simp only [Option.some.injEq] at h
      exact ⟨rfl, Or.inr (Or.inr (Or.inr ⟨h4.1, h.symm⟩))⟩
  · intro h
    unfold bind_query_fun at h ⊢
    split_ifs at h ⊢
    rfl

/-- Instance of C4: `wand` without score data binds nothing and logs the
error; the run of `and` without score data invokes boolean AND only. -/
theorem C4_variant_resolution_witness :
    (bind_query_fun "wand" false).1 = none ∧
    (bind_query_fun "wand" false).2 = [Event.error_unsupported_query_type "wand"] ∧
    (profile example_env "idx" none example_batch "block_optpfor" "and"
        = some ⟨[Step.seq (Event.info_loading_index "idx"), Step.seq (Event.map_index "idx"),
            Step.seq (Event.info_performing "block_optpfor"),
            Step.seq (Event.info_query_type "and"),
            Step.par [[Event.progress 0, Event.invoke Algorithm.and_query 0 [1, 5, 9],
                Event.invoke Algorithm.and_query 2 [1, 2, 3]],
              [Event.invoke Algorithm.and_query 1 [2]]],
            Step.seq Event.dump], Exit.normal⟩) ∧
    (∀ ws, Step.par ws ∈ [Step.seq (Event.info_loading_index "idx"),
            Step.seq (Event.map_index "idx"),
            Step.seq (Event.info_performing "block_optpfor"),
            Step.seq (Event.info_query_type "and"),
            Step.par [[Event.progress 0, Event.invoke Algorithm.and_query 0 [1, 5, 9],
                Event.invoke Algorithm.and_query 2 [1, 2, 3]],
              [Event.invoke Algorithm.and_query 1 [2]]],
            Step.seq Event.dump] →
      ∀ w ∈ ws, ∀ alg j q, Event.invoke alg j q ∈ w → alg = Algorithm.and_query) :=
  ⟨by decide, (C4_variant_resolution "wand" false).2.2.1 (by decide), by decide,
    (C4_variant_resolution "wand" false).2.2.2 example_env "idx" example_batch
      "block_optpfor" "and"
      ⟨[Step.seq (Event.info_loading_index "idx"), Step.seq (Event.map_index "idx"),
        Step.seq (Event.info_performing "block_optpfor"),
        Step.seq (Event.info_query_type "and"),
        Step.par [[Event.progress 0, Event.invoke Algorithm.and_query 0 [1, 5, 9],
            Event.invoke Algorithm.and_query 2 [1, 2, 3]],
          [Event.invoke Algorithm.and_query 1 [2]]],
        Step.seq Event.dump], Exit.normal⟩ (by decide)⟩

/-- With the empty function object every worker whose first position lies in
the batch throws at that position. -/
theorem op_profile_empty (queries : List term_id_vec) (N : Nat) :
    op_profile N none queries = some ((List.range N).map fun t =>
      if t < queries.length then
        ⟨(if t % 10000 = 0 then [Event.progress t] else []) ++ [Event.bad_function_call t], true⟩
      else ⟨[], false⟩) := by
  unfold op_profile
  rw [← join_all_map_some]
  show join_all _ = join_all _
  congr 1
  apply List.map_congr_left
  intro t _
  unfold worker_loop
  by_cases ht : t < queries.length <;> simp [ht]

/-- For at least one worker and a non-empty batch, a name that is not bound
ends `profile` in its pass of the loop: the process is aborted, the names
after it are not looked at and there is no dump. -/
theorem profile_loop_unresolved_aborts {N : Nat} {queries : List term_id_vec}
    (hN : 0 < N) (hQ : queries ≠ []) (t : String) (ts : List String) (has_wand_data : Bool)
    (hb : (bind_query_fun t has_wand_data).1 = none) :
    ∃ ws, op_profile N none queries = some ws ∧
      profile_loop N has_wand_data queries (t :: ts)
        = some ⟨[Step.seq (Event.info_query_type t),
              Step.seq (Event.error_unsupported_query_type t),
              Step.par (ws.map WorkerRun.events)], Exit.abort⟩ := by
  have hpos : 0 < queries.length := List.length_pos.2 hQ
  refine ⟨_, op_profile_empty queries N, ?_⟩
  have hlog : (bind_query_fun t has_wand_data).2 = [Event.error_unsupported_query_type t] := by
    unfold bind_query_fun at hb ⊢
    split_ifs at hb ⊢
    rfl
  have hany : ((List.range N).map fun t =>
      if t < queries.length then
        (⟨(if t % 10000 = 0 then [Event.progress t] else []) ++ [Event.bad_function_call t],
          true⟩ : WorkerRun)
      else ⟨[], false⟩).any WorkerRun.threw = true := by
    rw [List.any_eq_true]
    refine ⟨_, List.mem_map.2 ⟨0, List.mem_range.2 hN, rfl⟩, ?_⟩
    simp [hpos]
  unfold profile_loop
  simp only [hb, hlog, op_profile_empty, hany, if_true]
  rfl

/-- C3 fails on the code: after logging the error for an unresolvable name
`profile` still calls `op_profile` with the empty function object.  With two
workers and the three-query batch, `and:bogus` without score data runs `and`
and then ends by an uncaught `std::bad_function_call` with no dump, and
`wand:and` without score data ends the same way before `and` is run. -/
theorem C3_unresolved_name_aborts :
    profile example_env "idx" none example_batch "block_optpfor" "and:bogus"
      = some ⟨[Step.seq (Event.info_loading_index "idx"), Step.seq (Event.map_index "idx"),
          Step.seq (Event.info_performing "block_optpfor"),
          Step.seq (Event.info_query_type "and"),
          Step.par [[Event.progress 0, Event.invoke Algorithm.and_query 0 [1, 5, 9],
              Event.invoke Algorithm.and_query 2 [1, 2, 3]],
            [Event.invoke Algorithm.and_query 1 [2]]],
          Step.seq (Event.info_query_type "bogus"),
          Step.seq (Event.error_unsupported_query_type "bogus"),
          Step.par [[Event.progress 0, Event.bad_function_call 0],
            [Event.bad_function_call 1]]], Exit.abort⟩ ∧
    profile example_env "idx" none example_batch "block_optpfor" "wand:and"
      = some ⟨[Step.seq (Event.info_loading_index "idx"), Step.seq (Event.map_index "idx"),
          Step.seq (Event.info_performing "block_optpfor"),
          Step.seq (Event.info_query_type "wand"),
          Step.seq (Event.error_unsupported_query_type "wand"),
          Step.par [[Event.progress 0, Event.bad_function_call 0],
            [Event.bad_function_call 1]]], Exit.abort⟩ := by
  constructor <;> decide

/-! ## Command line and index type (C8, C9) -/

/-- C8 fails on the code.  With a score-data path before `--file` the entry
handed to `fb.open` lies two places after `--file`: for the seven arguments
`p T V idx wd --file q` it is the null pointer `argv[argc]`, not `q`, and
`main` has no defined behaviour.  Without a score-data path, `--file` itself
is taken as the score-data path and the queries are read from standard input
(when the entry after it is not `--file` again).  Without `--file`, the
command lines `p T V idx` and `p T V idx wd` make `main` build a
`std::string` from the null pointer `argv[argc]`. -/
theorem C8_command_line (p T V idx wd q : String) :
    main_args [p, T, V, idx, wd, "--file", q]
      = some ⟨T, CStr.str V, CStr.str idx, some wd, QuerySource.file CStr.null⟩ ∧
    main_args [p, T, V, idx, "--file", q]
      = some ⟨T, CStr.str V, CStr.str idx, some "--file",
          if q = "--file" then QuerySource.file CStr.out_of_range else QuerySource.stdin⟩ ∧
    main_args ["profile", "T", "V", "idx", "--file", "q"]
      = some ⟨"T", CStr.str "V", CStr.str "idx", some "--file", QuerySource.stdin⟩ ∧
    main_args [p, T, V, idx] = none ∧ main_args [p, T, V, idx, wd] = none ∧
    (∀ env : Env, main env [p, T, V, idx, wd, "--file", q] = some ⟨[], Exit.undefined⟩) := by
  refine ⟨?_, ?_, by decide, ?_, ?_, ?_⟩
  · simp [main_args, argv_at]
  · by_cases h : q = "--file" <;> simp [main_args, argv_at, h]
  · simp [main_args, argv_at]
  · simp [main_args, argv_at]
  · intro env
    simp [main, main_args, argv_at, read_queries]

/-- C9 fails as stated: for the uncatalogued type `bogus` the function
`main` logs `Unknown type bogus` and returns, which is exit status 0. -/
theorem C9_unknown_type_exit_normal :
    "bogus" ∉ example_env.index_types ∧
    main example_env ["profile", "bogus", "and", "idx", "wd", "-"]
      = some ⟨[Step.seq (Event.error_unknown_type "bogus")], Exit.normal⟩ ∧
    ¬ ∃ o, main example_env ["profile", "bogus", "and", "idx", "wd", "-"] = some o ∧
        o.exit ≠ Exit.normal := by
  decide

/-- C9 as amended: when the command line is read without fault and the
index type is not in the catalogue, `main` loads no index, runs no variant
on any query and writes no dump; its only event is the error line
`Unknown type <type>`, and it returns normally (exit status 0). -/
theorem C9_unknown_type (env : Env) (argv : List String) (a : Args)
    (queries : List term_id_vec) (hargs : main_args argv = some a)
    (hread : read_queries env a.source = some queries) (htype : a.type ∉ env.index_types) :
    main env argv = some ⟨[Step.seq (Event.error_unknown_type a.type)], Exit.normal⟩ := by
  unfold main
  simp only [hargs, hread]
  exact if_neg htype

/-- Instance of the amended C9: the type `bogus`. -/
theorem C9_unknown_type_witness :
    (main_args ["profile", "bogus", "and", "idx", "wd", "-"]
        = some ⟨"bogus", CStr.str "and", CStr.str "idx", some "wd", QuerySource.stdin⟩ ∧
      read_queries example_env QuerySource.stdin = some example_batch ∧
      "bogus" ∉ example_env.index_types) ∧
    main example_env ["profile", "bogus", "and", "idx", "wd", "-"]
      = some ⟨[Step.seq (Event.error_unknown_type "bogus")], Exit.normal⟩ :=
  ⟨⟨by decide, by decide, by decide⟩,
    C9_unknown_type example_env ["profile", "bogus", "and", "idx", "wd", "-"]
      ⟨"bogus", CStr.str "and", CStr.str "idx", some "wd", QuerySource.stdin⟩ example_batch
      (by decide) (by decide) (by decide)⟩

/-! ## Order of the runs and the dump (C10) -/

theorem intercalate_go_data (s : String) : ∀ (l : List String) (acc : String),
    (String.intercalate.go acc s l).data = acc.data ++ (l.flatMap fun a => s.data ++ a.data) := by
  intro l
  induction l with
  | nil => intro acc; simp [String.intercalate.go]
  | cons a l ih =>
    intro acc
    simp [String.intercalate.go, ih, String.data_append, List.append_assoc]

theorem list_intercalate_cons (sep a : List Char) (l : List (List Char)) :
    sep.intercalate (a :: l) = a ++ (l.flatMap fun x => sep ++ x) := by
  induction l generalizing a with
  | nil => simp [List.intercalate]
  | cons b l ih =>
    have := ih b
    simp only [List.intercalate] at this ⊢
    simp [List.intersperse, this]

theorem intercalate_data (s : String) (l : List String) :
    (s.intercalate l).data = s.data.intercalate (l.map String.data) := by
  cases l with
  | nil => rfl
  | cons a l =>
    rw [List.map_cons, list_intercalate_cons]
    simp [String.intercalate, intercalate_go_data, List.flatMap_map]

theorem split_query_types_intercalate {vs : List String} (hne : vs ≠ [])
    (hsep : ∀ v ∈ vs, ':' ∉ v.data) : split_query_types (":".intercalate vs) = vs := by
  unfold split_query_types
  have e : (":".intercalate vs).toList = [':'].intercalate (vs.map String.data) :=
    intercalate_data ":" vs
  rw [e, List.splitOn_intercalate _ ':' (by simpa using hsep) (by simpa using hne)]
  simp [List.map_map, Function.comp_def]

theorem bind_query_fun_bound {t : String} {has_wand_data : Bool} {alg : Algorithm}
    (h : (bind_query_fun t has_wand_data).1 = some alg) :
    (bind_query_fun t has_wand_data).2 = [] ∧
      (t = "and" ∨ t = "ranked_and" ∨ t = "wand" ∨ t = "maxscore") := by
  unfold bind_query_fun at h ⊢
  split_ifs at h ⊢ with h1 h2 h3 h4
  · exact ⟨rfl, Or.inl h1⟩
  · exact ⟨rfl, Or.inr (Or.inl h2.1)⟩
  · exact ⟨rfl, Or.inr (Or.inr (Or.inl h3.1))⟩
  · exact ⟨rfl, Or.inr (Or.inr (Or.inr h4.1))⟩

theorem bound_name_no_separator {t : String} {has_wand_data : Bool} {alg : Algorithm}
    (h : (bind_query_fun t has_wand_data).1 = some alg) : ':' ∉ t.data := by
  rcases (bind_query_fun_bound h).2 with rfl | rfl | rfl | rfl <;> decide

theorem bound_run_not_threw (alg : Algorithm) (queries : List term_id_vec) (N : Nat) :
    (bound_run alg queries N).any WorkerRun.threw = false := by
  simp [bound_run]

/-- The loop of `profile` over names that are all bound, in closed form. -/
theorem profile_loop_resolved {N : Nat} {has_wand_data : Bool} {queries : List term_id_vec}
    (hN : 0 < N) (hw : queries.length + N ≤ SIZE_T_RANGE) {vs : List String}
    {algs : List Algorithm}
    (hres : List.Forall₂ (fun v alg => (bind_query_fun v has_wand_data).1 = some alg) vs algs) :
    profile_loop N has_wand_data queries vs
      = some ⟨(List.zipWith (run_steps N queries) vs algs).flatten ++ [Step.seq Event.dump],
          Exit.normal⟩ := by
  induction hres with
  | nil => rfl
  | cons hb _ ih =>
    unfold profile_loop
    simp only [hb, (bind_query_fun_bound hb).1, op_profile_bound _ queries hN hw,
      bound_run_not_threw, ih]
    simp [run_steps]

theorem forall₂_exists_right {α β : Type} {R : α → β → Prop} {l₁ : List α} {l₂ : List β}
    (h : List.Forall₂ R l₁ l₂) : ∀ a ∈ l₁, ∃ b, R a b := by
  induction h with
  | nil => intro a ha; simp at ha
  | cons hab _ ih =>
    intro a ha
    rcases List.mem_cons.1 ha with rfl | ha
    · exact ⟨_, hab⟩
    · exact ih a ha

/-- The function `profile` on names that are all bound, in closed form. -/
theorem profile_resolved (env : Env) (index_filename : String)
    (wand_data_filename : Option String) (queries : List term_id_vec) (type : String)
    {vs : List String} {algs : List Algorithm}
    (hidx : env.index_mappable index_filename = true)
    (hwand : ∀ w ∈ wand_data_filename, env.wand_data_mappable w = true)
    (hN : 0 < env.hardware_concurrency)
    (hw : queries.length + env.hardware_concurrency ≤ SIZE_T_RANGE) (hne : vs ≠ [])
    (hres : List.Forall₂
      (fun v alg => (bind_query_fun v wand_data_filename.isSome).1 = some alg) vs algs) :
    profile env index_filename wand_data_filename queries type (":".intercalate vs)
      = some ⟨(load_events index_filename wand_data_filename type).map Step.seq
          ++ (List.zipWith (run_steps env.hardware_concurrency queries) vs algs).flatten
          ++ [Step.seq Event.dump], Exit.normal⟩ := by
  have hsep : ∀ v ∈ vs, ':' ∉ v.data := by
    intro v hv
    obtain ⟨alg, hb⟩ := forall₂_exists_right hres v hv
    exact bound_name_no_separator hb
  unfold profile
  rw [split_query_types_intercalate hne hsep, profile_loop_resolved hN hw hres]
  cases wand_data_filename with
  | none => simp [hidx, load_events]
  | some w =>
    have := hwand w rfl
    simp [hidx, this, load_events]

theorem flatten_eq_nil_of_forall {α : Type} {ws : List (List α)} (h : ∀ w ∈ ws, w = []) :
    ws.flatten = [] := by
  induction ws with
  | nil => rfl
  | cons w ws ih =>
    rw [List.flatten_cons, h w (List.mem_cons_self _ _),
      ih fun w hw => h w (List.mem_cons_of_mem _ hw)]
    rfl

/-- An interleaving holds the events of all workers, each as often as they occur. -/
theorem shuffle_perm {ws : List (List Event)} {tr : List Event} (h : Shuffle ws tr) :
    List.Perm tr ws.flatten := by
  induction h with
  | done ws h => rw [flatten_eq_nil_of_forall h]
  | step pre post e w tr _ ih =>
    simp only [List.flatten_append, List.flatten_cons, List.cons_append] at ih ⊢
    exact (List.Perm.cons e ih).trans List.perm_middle.symm

theorem shuffle_cons_nil {ws : List (List Event)} {tr : List Event} (h : Shuffle ws tr) :
    Shuffle ([] :: ws) tr := by
  induction h with
  | done ws h =>
    refine Shuffle.done _ ?_
    intro w hw
    rcases List.mem_cons.1 hw with rfl | hw
    · rfl
    · exact h w hw
  | step pre post e w tr _ ih => exact Shuffle.step ([] :: pre) post e w tr ih

/-- The workers running one after the other is an interleaving. -/
theorem shuffle_flatten (ws : List (List Event)) : Shuffle ws ws.flatten := by
  induction ws with
  | nil => exact Shuffle.done [] (by simp)
  | cons w ws ih =>
    induction w with
    | nil => exact shuffle_cons_nil ih
    | cons e w ihw => exact Shuffle.step [] ws e w _ ihw

/-- Every list of steps allows some event sequence. -/
theorem linearization_exists (ss : List Step) : ∃ tr, Linearization ss tr := by
  induction ss with
  | nil => exact ⟨[], Linearization.nil⟩
  | cons s ss ih =>
    obtain ⟨tr, h⟩ := ih
    cases s with
    | seq e => exact ⟨e :: tr, Linearization.seq e ss tr h⟩
    | par ws => exact ⟨ws.flatten ++ tr, Linearization.par ws ss _ tr (shuffle_flatten ws) h⟩

theorem linearization_seq_inv {e : Event} {ss : List Step} {tr : List Event}
    (h : Linearization (Step.seq e :: ss) tr) : ∃ tr₂, tr = e :: tr₂ ∧ Linearization ss tr₂ := by
  cases h with
  | seq _ _ tr₂ h => exact ⟨tr₂, rfl, h⟩

theorem linearization_par_inv {ws : List (List Event)} {ss : List Step} {tr : List Event}
    (h : Linearization (Step.par ws :: ss) tr) :
    ∃ tr₁ tr₂, tr = tr₁ ++ tr₂ ∧ Shuffle ws tr₁ ∧ Linearization ss tr₂ := by
  cases h with
  | par _ _ tr₁ tr₂ h₁ h₂ => exact ⟨tr₁, tr₂, rfl, h₁, h₂⟩

theorem linearization_map_seq (es : List Event) {ss : List Step} {tr : List Event}
    (h : Linearization (es.map Step.seq ++ ss) tr) :
    ∃ tr₂, tr = es ++ tr₂ ∧ Linearization ss tr₂ := by
  induction es generalizing tr with
  | nil => exact ⟨tr, rfl, h⟩
  | cons e es ih =>
    obtain ⟨tr₁, rfl, h₁⟩ := linearization_seq_inv h
    obtain ⟨tr₂, rfl, h₂⟩ := ih h₁
    exact ⟨tr₂, rfl, h₂⟩

theorem mem_worker_events {alg : Algorithm} {queries : List term_id_vec} {ps : List Nat}
    {e : Event} (h : e ∈ worker_events alg queries ps) :
    (∃ i, e = Event.progress i) ∨ ∃ i q, e = Event.invoke alg i q := by
  simp only [worker_events, List.mem_flatMap, iteration, List.mem_append, List.mem_singleton] at h
  obtain ⟨i, _, h | h⟩ := h
  · by_cases h0 : i % 10000 = 0
    · simp only [h0, if_true, List.mem_singleton] at h
      exact Or.inl ⟨i, h⟩
    · simp [h0] at h
  · exact Or.inr ⟨i, _, h⟩

theorem bound_run_flatten_positions (alg : Algorithm) (queries : List term_id_vec) (N : Nat) :
    invoked_positions ((bound_run alg queries N).map WorkerRun.events).flatten
      = ((List.range N).map fun t => positions N queries.length t).flatten := by
  unfold invoked_positions
  rw [List.filterMap_flatten]
  simp only [bound_run, List.map_map]
  congr 1
  apply List.map_congr_left
  intro t _
  exact invoked_positions_worker_events alg queries _

/-- Every interleaving of a run with a bound executor is a segment of its
variant. -/
theorem shuffle_bound_run_segment {alg : Algorithm} {queries : List term_id_vec} {N : Nat}
    (hN : 0 < N) (v : String) {tr : List Event}
    (h : Shuffle ((bound_run alg queries N).map WorkerRun.events) tr) :
    variant_segment queries.length alg (Event.info_query_type v :: tr) := by
  have hp := shuffle_perm h
  constructor
  · intro e he
    rcases List.mem_cons.1 he with rfl | he
    · exact ⟨by simp, by intro a j q h; cases h⟩
    · have he2 := hp.mem_iff.1 he
      obtain ⟨l, hl, hel⟩ := List.mem_flatten.1 he2
      obtain ⟨r, hr, rfl⟩ := List.mem_map.1 hl
      obtain ⟨t, _, rfl⟩ := List.mem_map.1 hr
      rcases mem_worker_events hel with ⟨i, rfl⟩ | ⟨i, q, rfl⟩
      · exact ⟨by simp, by intro a j q h; cases h⟩
      · refine ⟨by simp, ?_⟩
        intro a j q2 h
        cases h
        rfl
  · have e1 : invoked_positions (Event.info_query_type v :: tr) = invoked_positions tr := by
      simp [invoked_positions]
    rw [e1]
    have hp2 : List.Perm (invoked_positions tr)
        (invoked_positions ((bound_run alg queries N).map WorkerRun.events).flatten) :=
      hp.filterMap _
    rw [bound_run_flatten_positions] at hp2
    exact hp2.trans (positions_flatten_perm hN queries.length)

theorem linearization_runs {N : Nat} {queries : List term_id_vec} (hN : 0 < N)
    {vs : List String} {algs : List Algorithm} {R : String → Algorithm → Prop}
    (hres : List.Forall₂ R vs algs) :
    ∀ tr, Linearization
        ((List.zipWith (run_steps N queries) vs algs).flatten ++ [Step.seq Event.dump]) tr →
      ∃ segs, tr = segs.flatten ++ [Event.dump] ∧
        List.Forall₂ (variant_segment queries.length) algs segs := by
  induction hres with
  | nil =>
    intro tr h
    obtain ⟨tr₂, rfl, h₂⟩ := linearization_seq_inv h
    cases h₂
    exact ⟨[], rfl, List.Forall₂.nil⟩
  | @cons v alg vs algs _ _ ih =>
    intro tr h
    simp only [List.zipWith_cons_cons, List.flatten_cons, run_steps, List.cons_append,
      List.nil_append] at h
    obtain ⟨tr₁, rfl, h₁⟩ := linearization_seq_inv h
    obtain ⟨t₁, t₂, rfl, hs, h₂⟩ := linearization_par_inv h₁
    obtain ⟨segs, rfl, hsegs⟩ := ih t₂ h₂
    refine ⟨(Event.info_query_type v :: t₁) :: segs, by simp, ?_⟩
    exact List.Forall₂.cons (shuffle_bound_run_segment hN v hs) hsegs

theorem dump_not_mem_load_events (index_filename : String) (wand_data_filename : Option String)
    (type : String) : Event.dump ∉ load_events index_filename wand_data_filename type := by
  cases wand_data_filename <;> simp [load_events]

theorem dump_not_mem_segments {Q : Nat} {algs : List Algorithm} {segs : List (List Event)}
    (h : List.Forall₂ (variant_segment Q) algs segs) : Event.dump ∉ segs.flatten := by
  induction h with
  | nil => simp
  | cons hseg _ ih =>
    rw [List.flatten_cons, List.mem_append]
    rintro (hd | hd)
    · exact (hseg.1 _ hd).1 rfl
    · exact ih hd

theorem mem_invoked_positions {evs : List Event} {i : Nat} (h : i ∈ invoked_positions evs) :
    ∃ alg q, Event.invoke alg i q ∈ evs := by
  unfold invoked_positions at h
  obtain ⟨e, he, hi⟩ := List.mem_filterMap.1 h
  cases e with
  | invoke alg j q =>
    simp only [Option.some.injEq] at hi
    subst hi
    exact ⟨alg, q, he⟩
  | _ => simp at hi

/-- C10 fails as stated where C7 does: when the hardware parallelism is
reported as 0, `profile` on `and:ranked_and` with score data and the
three-query batch passes through both variants in order and ends with the
one dump, but each run has no worker: neither variant is invoked on any of
the three queries, so the event sequence of the process does not split into
a complete run of `and` and a complete run of `ranked_and`. -/
theorem C10_no_invocation_without_workers :
    profile example_env_zero "idx" (some "wd") example_batch "block_optpfor" "and:ranked_and"
      = some ⟨[Step.seq (Event.info_loading_index "idx"), Step.seq (Event.map_index "idx"),
          Step.seq (Event.map_wand_data "wd"),
          Step.seq (Event.info_performing "block_optpfor"),
          Step.seq (Event.info_query_type "and"), Step.par [],
          Step.seq (Event.info_query_type "ranked_and"), Step.par [],
          Step.seq Event.dump], Exit.normal⟩ ∧
    ¬ (∀ tr, Linearization
          [Step.seq (Event.info_loading_index "idx"), Step.seq (Event.map_index "idx"),
            Step.seq (Event.map_wand_data "wd"),
            Step.seq (Event.info_performing "block_optpfor"),
            Step.seq (Event.info_query_type "and"), Step.par [],
            Step.seq (Event.info_query_type "ranked_and"), Step.par [],
            Step.seq Event.dump] tr →
        ∃ segs, tr = load_events "idx" (some "wd") "block_optpfor" ++ segs.flatten
              ++ [Event.dump] ∧
          List.Forall₂ (variant_segment example_batch.length)
            [Algorithm.and_query, Algorithm.ranked_and_query 10] segs) := by
  refine ⟨by decide, ?_⟩
  intro H
  have hlin : Linearization
      [Step.seq (Event.info_loading_index "idx"), Step.seq (Event.map_index "idx"),
        Step.seq (Event.map_wand_data "wd"),
        Step.seq (Event.info_performing "block_optpfor"),
        Step.seq (Event.info_query_type "and"), Step.par [],
        Step.seq (Event.info_query_type "ranked_and"), Step.par [],
        Step.seq Event.dump]
      [Event.info_loading_index "idx", Event.map_index "idx", Event.map_wand_data "wd",
        Event.info_performing "block_optpfor", Event.info_query_type "and",
        Event.info_query_type "ranked_and", Event.dump] := by
    have hd : Shuffle [] [] := Shuffle.done [] (by simp)
    refine Linearization.seq _ _ _ (Linearization.seq _ _ _ (Linearization.seq _ _ _
      (Linearization.seq _ _ _ (Linearization.seq _ _ _ ?_))))
    refine Linearization.par [] _ [] _ hd (Linearization.seq _ _ _ ?_)
    exact Linearization.par [] _ [] _ hd (Linearization.seq _ _ _ Linearization.nil)
  obtain ⟨segs, htr, hsegs⟩ := H _ hlin
  cases hsegs with
  | cons hseg hrest =>
    rename_i s₁ rest
    have h0 : 0 ∈ invoked_positions s₁ := hseg.2.mem_iff.2 (by decide)
    obtain ⟨alg, q, hmem⟩ := mem_invoked_positions h0
    have hin : Event.invoke alg 0 q ∈
        load_events "idx" (some "wd") "block_optpfor" ++ (s₁ :: rest).flatten
          ++ [Event.dump] := by
      simp only [List.flatten_cons, List.mem_append]
      exact Or.inl (Or.inr (Or.inl hmem))
    rw [← htr] at hin
    simp at hin

/-- C10 as amended: on a non-empty list of names that are all bound, after a
successful load and with a reported hardware parallelism of at least 1 (and
no `size_t` wrap-around), `profile` returns normally; its steps are the loading, then for each name
in the requested order the query-type line and the joined run of that
name's algorithm over the batch, then the dump.  Every event sequence these
steps allow is the loading followed by one segment per name, in order, and
the dump as last event, where the segment of a name holds no dump, invokes
only that name's algorithm and does so on every batch position once. -/
theorem C10_runs_in_order (env : Env) (index_filename : String)
    (wand_data_filename : Option String) (queries : List term_id_vec) (type : String)
    (vs : List String) (algs : List Algorithm)
    (hidx : env.index_mappable index_filename = true)
    (hwand : ∀ w ∈ wand_data_filename, env.wand_data_mappable w = true)
    (hN : 0 < env.hardware_concurrency)
    (hw : queries.length + env.hardware_concurrency ≤ SIZE_T_RANGE) (hne : vs ≠ [])
    (hres : List.Forall₂
      (fun v alg => (bind_query_fun v wand_data_filename.isSome).1 = some alg) vs algs) :
    ∃ o, profile env index_filename wand_data_filename queries type (":".intercalate vs) = some o ∧
      o.exit = Exit.normal ∧
      o.steps = (load_events index_filename wand_data_filename type).map Step.seq
          ++ (List.zipWith (run_steps env.hardware_concurrency queries) vs algs).flatten
          ++ [Step.seq Event.dump] ∧
      ∀ tr, Linearization o.steps tr →
        ∃ segs, tr = load_events index_filename wand_data_filename type ++ segs.flatten
              ++ [Event.dump] ∧
          List.Forall₂ (variant_segment queries.length) algs segs ∧
          Event.dump ∉ load_events index_filename wand_data_filename type ++ segs.flatten := by
  refine ⟨_, profile_resolved env index_filename wand_data_filename queries type hidx hwand hN hw
    hne hres, rfl, rfl, ?_⟩
  intro tr h
  simp only [List.append_assoc] at h
  obtain ⟨tr₂, rfl, h₂⟩ := linearization_map_seq _ h
  obtain ⟨segs, rfl, hsegs⟩ := linearization_runs hN hres tr₂ h₂
  refine ⟨segs, by simp, hsegs, ?_⟩
  rw [List.mem_append]
  rintro (hd | hd)
  · exact dump_not_mem_load_events _ _ _ hd
  · exact dump_not_mem_segments hsegs hd

/-- Instance of the amended C10: `and:ranked_and` with score data, two
workers and the three-query batch. -/
theorem C10_runs_in_order_witness :
    (example_env.index_mappable "idx" = true ∧
      (∀ w ∈ (some "wd" : Option String), example_env.wand_data_mappable w = true) ∧
      0 < example_env.hardware_concurrency ∧
      example_batch.length + example_env.hardware_concurrency ≤ SIZE_T_RANGE ∧
      ["and", "ranked_and"] ≠ [] ∧
      List.Forall₂
        (fun v alg => (bind_query_fun v (some "wd" : Option String).isSome).1 = some alg)
        ["and", "ranked_and"] [Algorithm.and_query, Algorithm.ranked_and_query 10]) ∧
    ∃ o, profile example_env "idx" (some "wd") example_batch "block_optpfor"
        (":".intercalate ["and", "ranked_and"]) = some o ∧
      o.exit = Exit.normal ∧
      o.steps = (load_events "idx" (some "wd") "block_optpfor").map Step.seq
          ++ (List.zipWith (run_steps example_env.hardware_concurrency example_batch)
              ["and", "ranked_and"]
              [Algorithm.and_query, Algorithm.ranked_and_query 10]).flatten
          ++ [Step.seq Event.dump] ∧
      ∀ tr, Linearization o.steps tr →
        ∃ segs, tr = load_events "idx" (some "wd") "block_optpfor" ++ segs.flatten
              ++ [Event.dump] ∧
          List.Forall₂ (variant_segment example_batch.length)
            [Algorithm.and_query, Algorithm.ranked_and_query 10] segs ∧
          Event.dump ∉ load_events "idx" (some "wd") "block_optpfor" ++ segs.flatten :=
  ⟨⟨rfl, fun _ _ => rfl, by decide, by decide, by decide,
      List.Forall₂.cons (by decide) (List.Forall₂.cons (by decide) List.Forall₂.nil)⟩,
    C10_runs_in_order example_env "idx" (some "wd") example_batch "block_optpfor"
      ["and", "ranked_and"] [Algorithm.and_query, Algorithm.ranked_and_query 10]
      rfl (fun _ _ => rfl) (by decide) (by decide) (by decide)
      (List.Forall₂.cons (by decide) (List.Forall₂.cons (by decide) List.Forall₂.nil))⟩

end Pisa
